import Mathlib

/-!
Verification of the distribution-graph builder in `src/main.py`.

The Python program builds an in-memory graph of installed distributions
(`DistributionDB`) whose nodes are `DistributionDB.DistributionEntry` values.
This file gives a shallow embedding of that code:

* the host environment (installed-package metadata store) is an explicit
  read-only structure `Env` (the code reads it through
  `importlib.metadata.version`, `requires`, `distributions` and
  `__import__(name).__version__`);
* `DistributionEntry` becomes the structure `Entry`; its mutable
  `__requirements` set of object references is represented by the list of
  node-identity keys `(name, version)` of the referenced entries, and the
  `__currently_processed` flag is represented (negated) by `finalized`;
* Python `set` operations are modelled on lists, with membership tested by
  "hash equal and `==` equal" exactly as CPython does; Python's `hash` on a
  pair of strings is modelled as the pair itself (hash collisions between
  distinct pairs are assumed not to occur), and iteration order is fixed to
  insertion order;
* the regular expressions `_regex_requirement_split` = `([^;]+)` (used with
  `.match`) and `_regex_version` = `([^\(]+)(\(([^\)]+))*` (used with
  `.search`) are expanded into their exact behaviour on strings;
* the one uncaught exception the code can raise during graph construction
  (`result.group(1)` with `result = None` when `_regex_version.search` finds
  no match) is modelled with `Except Unit`;
* the unbounded `while not self.__done()` loop is modelled as a fuel-indexed
  loop `buildLoop`; the termination theorem shows the chosen fuel always
  reaches the fixed point, i.e. the Python loop terminates.
-/

deriving instance DecidableEq for Except

namespace PyReq

/-! Python strings are modelled as Lean `String`s, but every operation is
defined on the underlying character list so that all definitions evaluate
inside the kernel (Mathlib's `String` order is iterator-based and does not
reduce).  Python's `str` comparison is lexicographic by code point, which is
exactly `charListLt` below; `str.lower()` is `Char.toLower` characterwise
(the names in play are ASCII, where the two agree). -/

/-- Lexicographic code-point comparison of character lists: Python `<` on
`str`. -/
def charListLt : List Char → List Char → Bool
  | _, [] => false
  | [], _ :: _ => true
  | a :: as, b :: bs => if a < b then true else if b < a then false else charListLt as bs

/-- Python `str.__lt__`. -/
def pyStrLt (a b : String) : Bool := charListLt a.data b.data

/-- Python `str.lower()` (ASCII). -/
def pyLower (s : String) : String := ⟨s.data.map Char.toLower⟩

/-- Python `str.strip()`: remove leading and trailing whitespace. -/
def pyStrip (s : String) : String :=
  ⟨(((s.data.dropWhile Char.isWhitespace).reverse).dropWhile Char.isWhitespace).reverse⟩

/-- The longest prefix of `s` whose characters all satisfy `p`. -/
def strTakeWhile (p : Char → Bool) (s : String) : String := ⟨s.data.takeWhile p⟩

/-- Drop the longest prefix of `s` whose characters all satisfy `p`. -/
def strDropWhile (p : Char → Bool) (s : String) : String := ⟨s.data.dropWhile p⟩

/-- Drop the first `n` characters of `s`. -/
def strDrop (s : String) (n : Nat) : String := ⟨s.data.drop n⟩

/-- Number of characters of `s`. -/
def strLen (s : String) : Nat := s.data.length

/-- Whether `s` is empty. -/
def strIsEmpty (s : String) : Bool := s.data.isEmpty

/-- Whether `s` starts with the character `c`. -/
def strStartsWithChar (s : String) (c : Char) : Bool := s.data.head? == some c

/-- `DistributionDB.DistributionEntry` (src/main.py lines 24-117).
`reqs` holds the node-identity keys `(name, version)` of the entries in the
Python object's `__requirements` set; `finalized` is the negation of
`__currently_processed`. -/
structure Entry where
  name : String
  version : String
  version_provided : Bool
  version_detected : Bool
  finalized : Bool
  reqs : List (String × String)
deriving DecidableEq, Repr

/-- The host environment's installed-package metadata store, read by the code
through `importlib.metadata` and `__import__`:

* `pkgIndex` — `helper_packages_distributions()`: module name to list of
  owning distribution names (dict modelled as an association list in
  insertion order);
* `metaVersion n` — result of `importlib.metadata.version(n)`; `none` means
  `PackageNotFoundError` is raised;
* `modVersion n` — result of `getattr(__import__(n), "__version__")`; `none`
  means `ModuleNotFoundError` or `AttributeError` is raised;
* `installed` — the distribution names for which `importlib.metadata.requires`
  does not raise `PackageNotFoundError`;
* `reqsOf n` — the value returned by `requires(n)` when `n` is installed
  (`requires` may return `None`, hence the `Option`). -/
structure Env where
  pkgIndex : List (String × List String)
  metaVersion : String → Option String
  modVersion : String → Option String
  installed : List String
  reqsOf : String → Option (List String)

/-- The node-identity key used by `DistributionEntry.__hash__` (line 107-108):
`hash((self.name, self.version))`, with the raw, not lowercased, name.
Python's hash of a pair of strings is modelled as the pair itself. -/
def hashKey (e : Entry) : String × String := (e.name, e.version)

/-- `DistributionEntry.__eq__` (lines 83-85) restricted to two entries:
lowercased names equal and versions equal as exact strings. -/
def pyEqB (a b : Entry) : Bool :=
  (pyLower a.name == pyLower b.name) && (a.version == b.version)

/-- `DistributionEntry.__gt__` (lines 87-93): lexicographic on lowercased
name, then raw string comparison of version. -/
def pyGtB (a b : Entry) : Bool :=
  if pyStrLt (pyLower b.name) (pyLower a.name) then true
  else if pyLower a.name == pyLower b.name then pyStrLt b.version a.version
  else false

/-- `DistributionEntry.__ge__` (lines 98-99): `self == other or self > other`. -/
def pyGeB (a b : Entry) : Bool := pyEqB a b || pyGtB a b

/-- `DistributionEntry.__lt__` (lines 101-102): `not self >= other`. -/
def pyLtB (a b : Entry) : Bool := !(pyGeB a b)

/-- `DistributionEntry.__le__` (lines 104-105): `not self < other`. -/
def pyLeB (a b : Entry) : Bool := !(pyLtB a b)

/-- `DistributionEntry.__str__` (lines 110-117). -/
def render (e : Entry) : String :=
  if e.version_provided then e.name ++ e.version
  else if e.version_detected then e.name ++ " =" ++ e.version
  else e.name

/-- `DistributionEntry.__init__` (lines 25-43).  With an explicit version
string the version is taken verbatim and `version_provided` is set; otherwise
the metadata version is tried, then the module attribute fallback, and on
failure of both the version is the empty string with `version_detected`
false.  All failures are swallowed: construction is total. -/
def mkEntry (env : Env) (provided_dist_name : String)
    (version_str : Option String) : Entry :=
  match version_str with
  | some v => ⟨provided_dist_name, v, true, false, false, []⟩
  | none =>
    match env.metaVersion provided_dist_name with
    | some v => ⟨provided_dist_name, v, false, true, false, []⟩
    | none =>
      match env.modVersion provided_dist_name with
      | some v => ⟨provided_dist_name, v, false, true, false, []⟩
      | none => ⟨provided_dist_name, "", false, false, false, []⟩

/-- Parsing of one declared requirement string, as done in
`inspect_requirements` (lines 54-59).

`_regex_requirement_split.match` = `([^;]+)` anchored at the start: it
succeeds iff the string does not start with `;` and is nonempty, and returns
the longest prefix free of `;`; on failure the string is skipped (`none`).
The matched prefix is then `.strip()`ed.

`_regex_version.search` = `([^\(]+)(\(([^\)]+))*`: the first match starts at
the first character that is not `(`; group 1 greedily takes the run of
non-`(` characters from there (NOT stripped of whitespace); the starred group
can in fact repeat at most once (its unit never consumes `)`), so group 3 is
the run of non-`)` characters after the following `(` when that run is
nonempty, and `None` otherwise.  When the stripped prefix consists solely of
`(` characters (in particular when it is empty), `search` returns `None` and
the code calls `result.group(1)` on `None`, raising an uncaught
`AttributeError`, modelled as `Except.error ()`. -/
def parseRequirement (s : String) : Option (Except Unit (String × Option String)) :=
  let pre := strTakeWhile (fun c => c ≠ ';') s
  if strIsEmpty pre then none
  else
    let t := pyStrip pre
    let afterParens := strDropWhile (fun c => c = '(') t
    if strIsEmpty afterParens then some (Except.error ())
    else
      let g1 := strTakeWhile (fun c => c ≠ '(') afterParens
      let rest := strDrop afterParens (strLen g1)
      let inner := strTakeWhile (fun c => c ≠ ')') (strDrop rest 1)
      if strStartsWithChar rest '(' && !(strIsEmpty inner) then
        some (Except.ok (g1, some inner))
      else some (Except.ok (g1, none))

/-- The sequence of pairs yielded by the generator for a given list of
declared requirement strings; an `AttributeError` aborts the sequence. -/
def parseAll : List String → Except Unit (List (String × Option String))
  | [] => Except.ok []
  | s :: rs =>
    match parseRequirement s with
    | none => parseAll rs
    | some (Except.error e) => Except.error e
    | some (Except.ok p) => (parseAll rs).map (fun l => p :: l)

/-- `DistributionEntry.inspect_requirements` (lines 45-59): when the
distribution is not installed, `requires` raises `PackageNotFoundError`,
which is swallowed and the generator yields nothing; when `requires` returns
`None` the generator also yields nothing; otherwise each requirement string
is parsed by `parseRequirement`. -/
def inspectRequirements (env : Env) (name : String) :
    Except Unit (List (String × Option String)) :=
  if name ∈ env.installed then
    match env.reqsOf name with
    | none => Except.ok []
    | some rs => parseAll rs
  else Except.ok []

/-- The yielded pairs when no `AttributeError` occurs (empty on error; only
used under a no-error hypothesis or for the finite universe bound). -/
def inspectOk (env : Env) (name : String) : List (String × Option String) :=
  match inspectRequirements env name with
  | Except.ok l => l
  | Except.error _ => []

/-- Whether inspecting this name raises the uncaught `AttributeError`. -/
def inspectFails (env : Env) (name : String) : Bool :=
  match inspectRequirements env name with
  | Except.ok _ => false
  | Except.error _ => true

/-- `DistributionDB.find` (lines 125-130): linear scan comparing
`hash((provided_distribution_name, provided_version))` with each stored
entry's `hash((name, version))`.  The query version may be `None` while every
stored version is a string, so equality of the hashed pairs requires the
query version to be `some` of the stored version. -/
def findE (known : List Entry) (provided_distribution_name : String)
    (provided_version : Option String) : Option Entry :=
  known.find? (fun d =>
    provided_distribution_name == d.name && provided_version == some d.version)

/-- Requirement-object resolution in the construction loop (lines 160-163):
reuse the node found by `find`, else construct a fresh entry. -/
def resolveDep (env : Env) (known : List Entry) (dep : String × Option String) : Entry :=
  match findE known dep.1 dep.2 with
  | some d => d
  | none => mkEntry env dep.1 dep.2

/-- Python `set.add` / the `not in` membership test used at lines 152-153 and
by `set.update` at line 167: the element is added unless some member has an
equal hash and compares `==` equal. -/
def pySetAdd (s : List Entry) (e : Entry) : List Entry :=
  if s.any (fun d => hashKey d == hashKey e && pyEqB d e) then s else s ++ [e]

/-- Python `set.update` (line 167), elementwise `pySetAdd`. -/
def updateSet (s : List Entry) (batch : List Entry) : List Entry :=
  batch.foldl pySetAdd s

/-- Seeding of `__known_distributions` (lines 149-153): one entry per
occurrence of a distribution name in the index values, deduplicated with the
set membership test. -/
def seed (env : Env) : List Entry :=
  updateSet [] ((env.pkgIndex.flatMap Prod.snd).map (fun dn => mkEntry env dn none))

/-- `__requirements.add` (line 66) repeated for the requirement objects of
one pass, at the key level: a Python set of entries deduplicates exactly by
key, because hash-equal entries are always `==`-equal. -/
def addReqKeys (rs : List (String × String)) (objs : List Entry) : List (String × String) :=
  objs.foldl (fun acc o => if acc.contains (hashKey o) then acc else acc ++ [hashKey o]) rs

/-- Processing of one node during one pass of the construction loop (lines
158-166): a finalized node is untouched; a non-finalized node has every
resolved requirement object added to its requirement set and is finalized. -/
def entryStep (env : Env) (snapshot : List Entry) (e : Entry) : Entry :=
  if e.finalized then e
  else { e with finalized := true,
                reqs := addReqKeys e.reqs
                  ((inspectOk env e.name).map (resolveDep env snapshot)) }

/-- The `requirements_to_add` batch of one pass (lines 156-165): every
requirement object resolved for a non-finalized node, in processing order
(the batch is a Python set; first insertion wins, as in `updateSet`). -/
def newObjs (env : Env) (known : List Entry) : List Entry :=
  known.flatMap (fun e =>
    if e.finalized then []
    else (inspectOk env e.name).map (resolveDep env known))

/-- One full pass of the `while not self.__done()` loop (lines 155-167).  If
some non-finalized node's `inspect_requirements` raises the uncaught
`AttributeError`, construction aborts; otherwise every non-finalized node is
processed against the pass's snapshot of the set and the batch is merged. -/
def buildStep (env : Env) (known : List Entry) : Except Unit (List Entry) :=
  if known.any (fun e => !e.finalized && inspectFails env e.name) then Except.error ()
  else Except.ok (updateSet (known.map (entryStep env known)) (newObjs env known))

/-- `DistributionDB.__done` (lines 119-123). -/
def done (known : List Entry) : Bool := known.all (fun e => e.finalized)

/-- The fixed-point loop, fuel-indexed (the termination theorem shows the
fuel chosen in `dbInit` always suffices, hence the Python `while` loop
terminates).  The loop exits at the first pass at which all nodes are
finalized. -/
def buildLoop (env : Env) : Nat → List Entry → Except Unit (List Entry)
  | 0, known => Except.ok known
  | Nat.succ n, known =>
    if done known then Except.ok known
    else
      match buildStep env known with
      | Except.error e => Except.error e
      | Except.ok known2 => buildLoop env n known2

/-- All requirement pairs any installed distribution can ever yield: the
finite universe from which every discovered dependency is drawn. -/
def allDeps (env : Env) : List (String × Option String) :=
  env.installed.flatMap (fun n => inspectOk env n)

/-- A finite list containing the key of every entry the construction can ever
place in the node set. -/
def uKeys (env : Env) : List (String × String) :=
  (seed env).map hashKey ++ (allDeps env).map (fun p => hashKey (mkEntry env p.1 p.2))

/-- `DistributionDB.__init__` (lines 146-167): seed, then iterate to the
fixed point. -/
def dbInit (env : Env) : Except Unit (List Entry) :=
  buildLoop env ((uKeys env).length + 1) (seed env)

/-- No declared requirement string of any installed distribution triggers the
uncaught `AttributeError` of `inspect_requirements`. -/
def noParseErr (env : Env) : Prop :=
  ∀ n ∈ env.installed, inspectFails env n = false

/-- Stable sort by `__lt__`, as `list.sort()` does (lines 230, 244): an
element `a` may stay before `b` exactly when `not (b < a)`. -/
def sortEntries (l : List Entry) : List Entry :=
  l.mergeSort (fun a b => !(pyLtB b a))

/-- Strictly-less under the lexicographic ordering the spec describes:
lowercased name first, then raw string comparison of version. -/
def lexLt (a b : Entry) : Prop :=
  pyStrLt (pyLower a.name) (pyLower b.name) = true ∨
    (pyLower a.name = pyLower b.name ∧ pyStrLt a.version b.version = true)

/-- The requirement string of the C4 test:
`foo (>=1.0,<2.0); python_version>='3.7'` (apostrophes spelled via their
code point to keep the file ASCII-clean). -/
def c4input : String :=
  "foo (>=1.0,<2.0); python_version>=" ++ String.singleton (Char.ofNat 39)
    ++ "3.7" ++ String.singleton (Char.ofNat 39)

/-- Environment with one installed distribution `dist` declaring the C4
requirement string. -/
def envC4 : Env :=
  ⟨[], fun _ => none, fun _ => none, ["dist"],
   fun n => if n == "dist" then some [c4input] else none⟩

/-- Environment with one installed distribution `dist` declaring the
requirement string with a whitespace-only part before the `;`. -/
def envC5 : Env :=
  ⟨[], fun _ => none, fun _ => none, ["dist"],
   fun n => if n == "dist" then some [" ;x"] else none⟩

/-- Environment in which nothing is installed and no version can be found
anywhere. -/
def envEmpty : Env := ⟨[], fun _ => none, fun _ => none, [], fun _ => none⟩

/-- A small synthetic environment with a requirement cycle
(`A` requires `B`, `B` requires `A`) plus an unversioned requirement, used to
witness the construction theorems. -/
def envCyc : Env :=
  ⟨[("moda", ["A"]), ("modb", ["B"])],
   fun n =>
     if n == "A" then some "1.0"
     else if n == "B" then some "2.0"
     else if n == "D" then some "3.0"
     else none,
   fun _ => none,
   ["A", "B", "D"],
   fun n =>
     if n == "A" then some ["B (>=2.0)", "C"]
     else if n == "B" then some ["A (>=1.0)", "D"]
     else if n == "D" then some ["C"]
     else none⟩

/-- Invariant maintained by graph construction: node keys are pairwise
distinct, every requirement edge points at a key present in the set, and
every key lies in the finite universe `uKeys`. -/
def Inv (env : Env) (known : List Entry) : Prop :=
  ((known.map hashKey).Nodup) ∧
  (∀ e ∈ known, ∀ k ∈ e.reqs, k ∈ known.map hashKey) ∧
  (∀ e ∈ known, hashKey e ∈ uKeys env)

theorem charListLt_irrefl (a : List Char) : charListLt a a = false := by
  induction a with
  | nil => rfl
  | cons x xs ih => simp [charListLt, lt_self_iff_false, ih]

theorem charListLt_trichot (a : List Char) :
    ∀ b, charListLt a b = true ∨ a = b ∨ charListLt b a = true := by
  induction a with
  | nil =>
    intro b
    cases b with
    | nil => exact Or.inr (Or.inl rfl)
    | cons c cs => exact Or.inl rfl
  | cons x xs ih =>
    intro b
    cases b with
    | nil => exact Or.inr (Or.inr rfl)
    | cons y ys =>
      rcases lt_trichotomy x y with h | h | h
      · left; simp [charListLt, h]
      · subst h
        rcases ih ys with h2 | h2 | h2
        · left; simp [charListLt, lt_self_iff_false, h2]
        · right; left; rw [h2]
        · right; right; simp [charListLt, lt_self_iff_false, h2]
      · right; right; simp [charListLt, h]

theorem charListLt_asymm (a : List Char) :
    ∀ b, charListLt a b = true → charListLt b a = false := by
  induction a with
  | nil =>
    intro b h
    cases b with
    | nil => simp [charListLt] at h
    | cons c cs => rfl
  | cons x xs ih =>
    intro b h
    cases b with
    | nil => simp [charListLt] at h
    | cons y ys =>
      by_cases h1 : x < y
      · simp [charListLt, h1, lt_asymm h1]
      · by_cases h2 : y < x
        · simp [charListLt, h1, h2] at h
        · have hxy : x = y := le_antisymm (le_of_not_lt h2) (le_of_not_lt h1)
          subst hxy
          simp [charListLt, lt_self_iff_false] at h ⊢
          exact ih ys h

theorem charListLt_trans (a : List Char) :
    ∀ b c, charListLt a b = true → charListLt b c = true → charListLt a c = true := by
  induction a with
  | nil =>
    intro b c h1 h2
    cases b with
    | nil => simp [charListLt] at h1
    | cons y ys =>
      cases c with
      | nil => simp [charListLt] at h2
      | cons z zs => rfl
  | cons x xs ih =>
    intro b c h1 h2
    cases b with
    | nil => simp [charListLt] at h1
    | cons y ys =>
      cases c with
      | nil => simp [charListLt] at h2
      | cons z zs =>
        by_cases hxy : x < y
        · by_cases hyz : y < z
          · simp [charListLt, lt_trans hxy hyz]
          · by_cases hzy : z < y
            · simp [charListLt, hyz, hzy] at h2
            · have : y = z := le_antisymm (le_of_not_lt hzy) (le_of_not_lt hyz)
              subst this
              simp [charListLt, hxy]
        · by_cases hyx : y < x
          · simp [charListLt, hxy, hyx] at h1
          · have hxy2 : x = y := le_antisymm (le_of_not_lt hyx) (le_of_not_lt hxy)
            subst hxy2
            simp [charListLt, lt_self_iff_false] at h1
            by_cases hxz : x < z
            · simp [charListLt, hxz]
            · by_cases hzx : z < x
              · simp [charListLt, hxz, hzx] at h2
              · have : x = z := le_antisymm (le_of_not_lt hzx) (le_of_not_lt hxz)
                subst this
                simp [charListLt, lt_self_iff_false] at h2 ⊢
                exact ih ys zs h1 h2

theorem pyStrLt_irrefl (s : String) : pyStrLt s s = false :=
  charListLt_irrefl s.data

theorem pyStrLt_trichot (s t : String) :
    pyStrLt s t = true ∨ s = t ∨ pyStrLt t s = true := by
  rcases charListLt_trichot s.data t.data with h | h | h
  · exact Or.inl h
  · exact Or.inr (Or.inl (congrArg String.mk h))
  · exact Or.inr (Or.inr h)

theorem pyStrLt_asymm {s t : String} (h : pyStrLt s t = true) : pyStrLt t s = false :=
  charListLt_asymm s.data t.data h

theorem pyStrLt_trans {s t u : String} (h1 : pyStrLt s t = true)
    (h2 : pyStrLt t u = true) : pyStrLt s u = true :=
  charListLt_trans s.data t.data u.data h1 h2

theorem pyGeB_eq_true_iff (a b : Entry) : pyGeB a b = true ↔
    (pyStrLt (pyLower b.name) (pyLower a.name) = true ∨
     (pyLower a.name = pyLower b.name ∧
       (a.version = b.version ∨ pyStrLt b.version a.version = true))) := by
  unfold pyGeB pyEqB pyGtB
  by_cases h1 : pyStrLt (pyLower b.name) (pyLower a.name) = true
  · simp [h1]
  · have h1f : pyStrLt (pyLower b.name) (pyLower a.name) = false :=
      Bool.eq_false_iff.mpr h1
    by_cases h2 : pyLower a.name = pyLower b.name
    · simp [h2, pyStrLt_irrefl, Bool.or_eq_true, beq_iff_eq]
    · simp [h1f, beq_eq_false_iff_ne.mpr h2, h1, h2]

theorem pyGeB_total (a b : Entry) : pyGeB a b = true ∨ pyGeB b a = true := by
  rcases pyStrLt_trichot (pyLower a.name) (pyLower b.name) with h | h | h
  · exact Or.inr ((pyGeB_eq_true_iff b a).mpr (Or.inl h))
  · rcases pyStrLt_trichot a.version b.version with h2 | h2 | h2
    · exact Or.inr ((pyGeB_eq_true_iff b a).mpr (Or.inr ⟨h.symm, Or.inr h2⟩))
    · exact Or.inl ((pyGeB_eq_true_iff a b).mpr (Or.inr ⟨h, Or.inl h2⟩))
    · exact Or.inl ((pyGeB_eq_true_iff a b).mpr (Or.inr ⟨h, Or.inr h2⟩))
  · exact Or.inl ((pyGeB_eq_true_iff a b).mpr (Or.inl h))

theorem pyGeB_trans {a b c : Entry} (h1 : pyGeB a b = true)
    (h2 : pyGeB b c = true) : pyGeB a c = true := by
  rw [pyGeB_eq_true_iff] at h1 h2 ⊢
  rcases h1 with h1 | ⟨h1n, h1v⟩
  · rcases h2 with h2 | ⟨h2n, h2v⟩
    · exact Or.inl (pyStrLt_trans h2 h1)
    · exact Or.inl (h2n ▸ h1)
  · rcases h2 with h2 | ⟨h2n, h2v⟩
    · exact Or.inl (h1n ▸ h2)
    · refine Or.inr ⟨h1n.trans h2n, ?_⟩
      rcases h1v with h1v | h1v
      · rcases h2v with h2v | h2v
        · exact Or.inl (h1v.trans h2v)
        · exact Or.inr (h1v ▸ h2v)
      · rcases h2v with h2v | h2v
        · exact Or.inr (h2v ▸ h1v)
        · exact Or.inr (pyStrLt_trans h2v h1v)

theorem pyGeB_antisymm {a b : Entry} (h1 : pyGeB a b = true)
    (h2 : pyGeB b a = true) : pyEqB a b = true := by
  rw [pyGeB_eq_true_iff] at h1 h2
  rcases h1 with h1 | ⟨h1n, h1v⟩
  · rcases h2 with h2 | ⟨h2n, h2v⟩
    · rw [pyStrLt_asymm h2] at h1; exact absurd h1 (by simp)
    · rw [h2n] at h1; rw [pyStrLt_irrefl] at h1; exact absurd h1 (by simp)
  · rcases h2 with h2 | ⟨h2n, h2v⟩
    · rw [h1n] at h2; rw [pyStrLt_irrefl] at h2; exact absurd h2 (by simp)
    · have hv : a.version = b.version := by
        rcases h1v with h | h
        · exact h
        · rcases h2v with h3 | h3
          · exact h3.symm
          · rw [pyStrLt_asymm h3] at h; exact absurd h (by simp)
      simp [pyEqB, h1n, hv]

theorem pyEqB_of_hashKey_eq {d e : Entry} (h : hashKey d = hashKey e) :
    pyEqB d e = true := by
  have h1 : d.name = e.name := congrArg Prod.fst h
  have h2 : d.version = e.version := congrArg Prod.snd h
  simp [pyEqB, h1, h2]

theorem pySetAdd_mem {s : List Entry} {e : Entry}
    (h : hashKey e ∈ s.map hashKey) : pySetAdd s e = s := by
  unfold pySetAdd
  have hc : s.any (fun d => hashKey d == hashKey e && pyEqB d e) = true := by
    rcases List.mem_map.mp h with ⟨d, hd, hk⟩
    exact List.any_eq_true.mpr ⟨d, hd, by simp [hk, pyEqB_of_hashKey_eq hk]⟩
  simp [hc]

theorem pySetAdd_not_mem {s : List Entry} {e : Entry}
    (h : hashKey e ∉ s.map hashKey) : pySetAdd s e = s ++ [e] := by
  unfold pySetAdd
  have hc : s.any (fun d => hashKey d == hashKey e && pyEqB d e) = false := by
    apply List.any_eq_false.mpr
    intro d hd hp
    simp only [Bool.and_eq_true, beq_iff_eq] at hp
    exact h (List.mem_map.mpr ⟨d, hd, hp.1⟩)
  simp [hc]

theorem updateSet_nil (s : List Entry) : updateSet s [] = s := rfl

theorem updateSet_cons (s : List Entry) (o : Entry) (os : List Entry) :
    updateSet s (o :: os) = updateSet (pySetAdd s o) os := rfl

theorem updateSet_key_mono :
    ∀ (b s : List Entry) (k : String × String),
      k ∈ s.map hashKey → k ∈ (updateSet s b).map hashKey := by
  intro b
  induction b with
  | nil => intro s k h; exact h
  | cons o os ih =>
    intro s k h
    rw [updateSet_cons]
    apply ih
    by_cases hm : hashKey o ∈ s.map hashKey
    · rw [pySetAdd_mem hm]; exact h
    · rw [pySetAdd_not_mem hm, List.map_append]
      exact List.mem_append_left _ h

theorem updateSet_elems :
    ∀ (b s : List Entry) (e : Entry), e ∈ updateSet s b → e ∈ s ∨ e ∈ b := by
  intro b
  induction b with
  | nil => intro s e h; exact Or.inl h
  | cons o os ih =>
    intro s e h
    rw [updateSet_cons] at h
    rcases ih _ _ h with h2 | h2
    · by_cases hm : hashKey o ∈ s.map hashKey
      · rw [pySetAdd_mem hm] at h2; exact Or.inl h2
      · rw [pySetAdd_not_mem hm] at h2
        rcases List.mem_append.mp h2 with h3 | h3
        · exact Or.inl h3
        · exact Or.inr (by simpa using Or.inl (List.mem_singleton.mp h3))
    · exact Or.inr (List.mem_cons_of_mem _ h2)

theorem updateSet_batch_keys :
    ∀ (b s : List Entry) (o : Entry), o ∈ b →
      hashKey o ∈ (updateSet s b).map hashKey := by
  intro b
  induction b with
  | nil => intro s o h; cases h
  | cons o' os ih =>
    intro s o ho
    rw [updateSet_cons]
    rcases List.mem_cons.mp ho with rfl | h
    · apply updateSet_key_mono
      by_cases hm : hashKey o ∈ s.map hashKey
      · rw [pySetAdd_mem hm]; exact hm
      · rw [pySetAdd_not_mem hm, List.map_append]
        exact List.mem_append_right _ (by simp)
    · exact ih _ _ h

theorem updateSet_keys_nodup :
    ∀ (b s : List Entry), (s.map hashKey).Nodup →
      ((updateSet s b).map hashKey).Nodup := by
  intro b
  induction b with
  | nil => intro s h; exact h
  | cons o os ih =>
    intro s h
    rw [updateSet_cons]
    apply ih
    by_cases hm : hashKey o ∈ s.map hashKey
    · rw [pySetAdd_mem hm]; exact h
    · rw [pySetAdd_not_mem hm, List.map_append]
      simp [List.nodup_append, h, hm]

theorem updateSet_len_ge :
    ∀ (b s : List Entry), s.length ≤ (updateSet s b).length := by
  intro b
  induction b with
  | nil => intro s; exact Nat.le_refl _
  | cons o os ih =>
    intro s
    rw [updateSet_cons]
    refine Nat.le_trans ?_ (ih (pySetAdd s o))
    by_cases hm : hashKey o ∈ s.map hashKey
    · rw [pySetAdd_mem hm]
    · rw [pySetAdd_not_mem hm]
      simp

theorem updateSet_len_cases :
    ∀ (b s : List Entry),
      updateSet s b = s ∨ s.length < (updateSet s b).length := by
  intro b
  induction b with
  | nil => intro s; exact Or.inl rfl
  | cons o os ih =>
    intro s
    rw [updateSet_cons]
    by_cases hm : hashKey o ∈ s.map hashKey
    · rw [pySetAdd_mem hm]; exact ih s
    · right
      rw [pySetAdd_not_mem hm]
      have h1 := updateSet_len_ge os (s ++ [o])
      simp only [List.length_append, List.length_singleton] at h1
      omega

theorem mkEntry_shape (env : Env) (n : String) (v : Option String) :
    ∃ ver pr det, mkEntry env n v = ⟨n, ver, pr, det, false, []⟩ := by
  unfold mkEntry
  rcases v with _ | v
  · rcases h1 : env.metaVersion n with _ | v1
    · rcases h2 : env.modVersion n with _ | v2
      · exact ⟨"", false, false, rfl⟩
      · exact ⟨v2, false, true, rfl⟩
    · exact ⟨v1, false, true, rfl⟩
  · exact ⟨v, true, false, rfl⟩

theorem mkEntry_reqs (env : Env) (n : String) (v : Option String) :
    (mkEntry env n v).reqs = [] := by
  obtain ⟨ver, pr, det, h⟩ := mkEntry_shape env n v
  rw [h]

theorem mkEntry_finalized (env : Env) (n : String) (v : Option String) :
    (mkEntry env n v).finalized = false := by
  obtain ⟨ver, pr, det, h⟩ := mkEntry_shape env n v
  rw [h]

theorem entryStep_hashKey (env : Env) (snap : List Entry) (e : Entry) :
    hashKey (entryStep env snap e) = hashKey e := by
  unfold entryStep
  split
  · rfl
  · rfl

theorem entryStep_finalized (env : Env) (snap : List Entry) (e : Entry) :
    (entryStep env snap e).finalized = true := by
  unfold entryStep
  split
  · assumption
  · rfl

theorem entryStep_of_finalized {env : Env} {snap : List Entry} {e : Entry}
    (h : e.finalized = true) : entryStep env snap e = e := by
  simp [entryStep, h]

theorem addReqKeys_sub :
    ∀ (objs : List Entry) (rs : List (String × String)) (k : String × String),
      k ∈ addReqKeys rs objs → k ∈ rs ∨ ∃ o ∈ objs, k = hashKey o := by
  intro objs
  induction objs with
  | nil => intro rs k h; exact Or.inl h
  | cons o os ih =>
    intro rs k h
    have heq : addReqKeys rs (o :: os) =
        addReqKeys (if rs.contains (hashKey o) then rs else rs ++ [hashKey o]) os := rfl
    rw [heq] at h
    rcases ih _ k h with h2 | h2
    · by_cases hc : rs.contains (hashKey o) = true
      · rw [if_pos hc] at h2; exact Or.inl h2
      · rw [if_neg hc] at h2
        rcases List.mem_append.mp h2 with h3 | h3
        · exact Or.inl h3
        · exact Or.inr ⟨o, List.mem_cons_self o os, List.mem_singleton.mp h3⟩
    · rcases h2 with ⟨o', ho', hk⟩
      exact Or.inr ⟨o', List.mem_cons_of_mem _ ho', hk⟩

theorem entryStep_reqs_sub (env : Env) (snap : List Entry) (e : Entry) :
    ∀ k ∈ (entryStep env snap e).reqs,
      k ∈ e.reqs ∨ (e.finalized = false ∧
        ∃ p ∈ inspectOk env e.name, k = hashKey (resolveDep env snap p)) := by
  intro k hk
  unfold entryStep at hk
  split at hk
  · exact Or.inl hk
  · rcases addReqKeys_sub _ _ _ hk with h | ⟨o, ho, hko⟩
    · exact Or.inl h
    · rcases List.mem_map.mp ho with ⟨p, hp, rfl⟩
      refine Or.inr ⟨?_, p, hp, hko⟩
      rename_i hfin
      exact Bool.eq_false_iff.mpr hfin

theorem resolveDep_cases (env : Env) (known : List Entry) (d : String × Option String) :
    resolveDep env known d ∈ known ∨ resolveDep env known d = mkEntry env d.1 d.2 := by
  unfold resolveDep
  cases h : findE known d.1 d.2 with
  | none => exact Or.inr rfl
  | some e =>
    left
    unfold findE at h
    exact List.mem_of_find?_eq_some h

theorem inspectOk_installed {env : Env} {n : String} {p : String × Option String}
    (hp : p ∈ inspectOk env n) : n ∈ env.installed := by
  by_cases h : n ∈ env.installed
  · exact h
  · exfalso
    unfold inspectOk inspectRequirements at hp
    rw [if_neg h] at hp
    simp at hp

theorem mem_allDeps {env : Env} {n : String} {p : String × Option String}
    (hn : n ∈ env.installed) (hp : p ∈ inspectOk env n) : p ∈ allDeps env :=
  List.mem_flatMap.mpr ⟨n, hn, hp⟩

theorem inspectFails_mem_installed {env : Env} {n : String}
    (h : inspectFails env n = true) : n ∈ env.installed := by
  by_cases hn : n ∈ env.installed
  · exact hn
  · exfalso
    unfold inspectFails inspectRequirements at h
    rw [if_neg hn] at h
    simp at h

theorem buildStep_ok {env : Env} (known : List Entry) (h : noParseErr env) :
    buildStep env known =
      Except.ok (updateSet (known.map (entryStep env known)) (newObjs env known)) := by
  unfold buildStep
  have hfalse : known.any (fun e => !e.finalized && inspectFails env e.name) = false := by
    apply List.any_eq_false.mpr
    intro e he hx
    simp only [Bool.and_eq_true] at hx
    have h3 := h e.name (inspectFails_mem_installed hx.2)
    rw [h3] at hx
    exact absurd hx.2 (by decide)
  simp [hfalse]

theorem newObjs_mem {env : Env} {known : List Entry} {o : Entry}
    (ho : o ∈ newObjs env known) :
    ∃ e ∈ known, e.finalized = false ∧
      ∃ p ∈ inspectOk env e.name, o = resolveDep env known p := by
  rcases List.mem_flatMap.mp ho with ⟨e, he, hoe⟩
  by_cases hf : e.finalized = true
  · simp [hf] at hoe
  · have hf' : e.finalized = false := Bool.eq_false_iff.mpr hf
    rw [if_neg (by simp [hf'])] at hoe
    rcases List.mem_map.mp hoe with ⟨p, hp, rfl⟩
    exact ⟨e, he, hf', p, hp, rfl⟩

theorem mem_newObjs {env : Env} {known : List Entry} {e : Entry}
    {p : String × Option String} (he : e ∈ known) (hf : e.finalized = false)
    (hp : p ∈ inspectOk env e.name) :
    resolveDep env known p ∈ newObjs env known := by
  apply List.mem_flatMap.mpr
  refine ⟨e, he, ?_⟩
  rw [if_neg (by simp [hf])]
  exact List.mem_map_of_mem _ hp

theorem inv_buildStep {env : Env} {known : List Entry} (hinv : Inv env known) :
    Inv env (updateSet (known.map (entryStep env known)) (newObjs env known)) := by
  obtain ⟨hnodup, hclosure, huniv⟩ := hinv
  have hkeys : (known.map (entryStep env known)).map hashKey = known.map hashKey := by
    rw [List.map_map]
    exact List.map_congr_left (fun e he => entryStep_hashKey env known e)
  refine ⟨?_, ?_, ?_⟩
  · apply updateSet_keys_nodup
    rw [hkeys]
    exact hnodup
  · intro e' he' k hk
    rcases updateSet_elems _ _ _ he' with h | h
    · rcases List.mem_map.mp h with ⟨e, he, rfl⟩
      rcases entryStep_reqs_sub env known e k hk with h2 | ⟨hf, p2, hp2, rfl⟩
      · apply updateSet_key_mono
        rw [hkeys]
        exact hclosure e he k h2
      · exact updateSet_batch_keys _ _ _ (mem_newObjs he hf hp2)
    · rcases newObjs_mem h with ⟨e, he, hf, p, hp, rfl⟩
      rcases resolveDep_cases env known p with hin | heq
      · apply updateSet_key_mono
        rw [hkeys]
        exact hclosure _ hin k hk
      · rw [heq, mkEntry_reqs] at hk
        cases hk
  · intro e' he'
    rcases updateSet_elems _ _ _ he' with h | h
    · rcases List.mem_map.mp h with ⟨e, he, rfl⟩
      rw [entryStep_hashKey]
      exact huniv e he
    · rcases newObjs_mem h with ⟨e, he, hf, p, hp, rfl⟩
      rcases resolveDep_cases env known p with hin | heq
      · exact huniv _ hin
      · rw [heq]
        unfold uKeys
        exact List.mem_append.mpr (Or.inr
          (List.mem_map_of_mem _ (mem_allDeps (inspectOk_installed hp) hp)))

theorem inv_length_le {env : Env} {known : List Entry} (hinv : Inv env known) :
    known.length ≤ (uKeys env).length := by
  obtain ⟨hnodup, -, huniv⟩ := hinv
  have h1 : known.length = (known.map hashKey).length := (List.length_map _ _).symm
  have h2 : (known.map hashKey).toFinset.card = (known.map hashKey).length :=
    List.toFinset_card_of_nodup hnodup
  have hsub : (known.map hashKey).toFinset ⊆ (uKeys env).toFinset := by
    intro k hk
    rw [List.mem_toFinset] at hk ⊢
    rcases List.mem_map.mp hk with ⟨e, he, rfl⟩
    exact huniv e he
  calc known.length = (known.map hashKey).toFinset.card := by rw [h2, h1]
    _ ≤ (uKeys env).toFinset.card := Finset.card_le_card hsub
    _ ≤ (uKeys env).length := List.toFinset_card_le _

theorem buildStep_progress (env : Env) (known : List Entry) :
    done (updateSet (known.map (entryStep env known)) (newObjs env known)) = true ∨
    known.length <
      (updateSet (known.map (entryStep env known)) (newObjs env known)).length := by
  rcases updateSet_len_cases (newObjs env known) (known.map (entryStep env known)) with h | h
  · left
    rw [h]
    apply List.all_eq_true.mpr
    intro e he
    rcases List.mem_map.mp he with ⟨e0, he0, rfl⟩
    exact entryStep_finalized env known e0
  · right
    rw [List.length_map] at h
    exact h

theorem buildLoop_of_done {env : Env} {known : List Entry} (h : done known = true) :
    ∀ f, buildLoop env f known = Except.ok known := by
  intro f
  cases f with
  | zero => rfl
  | succ n => simp [buildLoop, h]

theorem buildLoop_reaches_done (env : Env) (hnp : noParseErr env) :
    ∀ (f : Nat) (known : List Entry), Inv env known →
      (uKeys env).length + 1 ≤ known.length + f →
      ∃ s, buildLoop env f known = Except.ok s ∧ done s = true ∧ Inv env s := by
  intro f
  induction f with
  | zero =>
    intro known hinv hlen
    exfalso
    have := inv_length_le hinv
    omega
  | succ n ih =>
    intro known hinv hlen
    by_cases hd : done known = true
    · exact ⟨known, buildLoop_of_done hd _, hd, hinv⟩
    · have hd' : done known = false := Bool.eq_false_iff.mpr hd
      have hloop : buildLoop env (n + 1) known =
          buildLoop env n (updateSet (known.map (entryStep env known)) (newObjs env known)) := by
        simp [buildLoop, hd', buildStep_ok known hnp]
      rw [hloop]
      have hinv2 := inv_buildStep hinv
      rcases buildStep_progress env known with hdone | hlt
      · exact ⟨_, buildLoop_of_done hdone n, hdone, hinv2⟩
      · exact ih _ hinv2 (by omega)

theorem inv_seed (env : Env) : Inv env (seed env) := by
  refine ⟨?_, ?_, ?_⟩
  · unfold seed
    apply updateSet_keys_nodup
    simp
  · intro e he k hk
    unfold seed at he
    rcases updateSet_elems _ _ _ he with h | h
    · cases h
    · rcases List.mem_map.mp h with ⟨dn, hdn, rfl⟩
      rw [mkEntry_reqs] at hk
      cases hk
  · intro e he
    unfold uKeys
    exact List.mem_append.mpr (Or.inl (List.mem_map_of_mem _ he))

theorem pyGtB_eq_true_iff (a b : Entry) : pyGtB a b = true ↔
    (pyStrLt (pyLower b.name) (pyLower a.name) = true ∨
     (pyLower a.name = pyLower b.name ∧ pyStrLt b.version a.version = true)) := by
  unfold pyGtB
  by_cases h1 : pyStrLt (pyLower b.name) (pyLower a.name) = true
  · simp [h1]
  · have h1f : pyStrLt (pyLower b.name) (pyLower a.name) = false :=
      Bool.eq_false_iff.mpr h1
    by_cases h2 : pyLower a.name = pyLower b.name
    · simp [h2, pyStrLt_irrefl]
    · simp [h1f, h1, h2, beq_eq_false_iff_ne.mpr h2]

/-- C3: two entries compare `==`-equal iff their lowercased names and their
exact version strings agree, while the hash key used for set membership and
by `DistributionDB.find` is the raw pair `(name, version)` with the name not
lowercased; hence the entries `("Foo", "1.0")` and `("foo", "1.0")` compare
equal yet have distinct hash keys. -/
theorem C3_equality_vs_hash :
    (∀ a b : Entry,
      pyEqB a b = true ↔ (pyLower a.name = pyLower b.name ∧ a.version = b.version)) ∧
    (∀ e : Entry, hashKey e = (e.name, e.version)) ∧
    pyEqB ⟨"Foo", "1.0", false, false, false, []⟩
      ⟨"foo", "1.0", false, false, false, []⟩ = true ∧
    (hashKey ⟨"Foo", "1.0", false, false, false, []⟩ ==
      hashKey ⟨"foo", "1.0", false, false, false, []⟩) = false := by
  refine ⟨?_, fun e => rfl, by decide, by decide⟩
  intro a b
  simp [pyEqB, Bool.and_eq_true, beq_iff_eq]

/-- C4, counterexample: on the exact requirement string
`foo (>=1.0,<2.0); python_version>='3.7'` the generator yields
`("foo ", ">=1.0,<2.0")` — the name keeps its trailing space, so the claimed
yield `("foo", ">=1.0,<2.0")` is not produced. -/
theorem C4_parse_counterexample :
    parseRequirement c4input = some (Except.ok ("foo ", some ">=1.0,<2.0")) ∧
    decide (parseRequirement c4input =
      some (Except.ok ("foo", some ">=1.0,<2.0"))) = false := by
  exact ⟨by decide, by decide⟩

/-- C4, amended: everything after the first `;` is dropped and the part
before it is stripped as a whole, but `group(1)` is yielded verbatim: the
name keeps the whitespace standing before the opening parenthesis, and the
version spec is the raw text between the parentheses. -/
theorem C4_parse_amended :
    inspectRequirements envC4 "dist" = Except.ok [("foo ", some ">=1.0,<2.0")] ∧
    parseRequirement "foo (>=1.0,<2.0)" = some (Except.ok ("foo ", some ">=1.0,<2.0")) := by
  exact ⟨by decide, by decide⟩

/-- C5: the claim says every unparseable requirement string is skipped
silently; in fact only strings that are empty or start with `;` are skipped
(last two conjuncts), while a string whose part before the first `;` is
nonempty but strips to whitespace (or to `(` characters) only makes
`_regex_version.search` return `None`, and `result.group(1)` then raises an
uncaught `AttributeError` — `inspect_requirements` on such a distribution
errors instead of yielding nothing. -/
theorem C5_malformed_raises :
    inspectRequirements envC5 "dist" = Except.error () ∧
    parseRequirement " ;x" = some (Except.error ()) ∧
    parseRequirement "" = none ∧
    parseRequirement ";x" = none := by
  exact ⟨by decide, by decide, by decide, by decide⟩

/-- C6: distribution-not-found is swallowed everywhere.  Construction of an
entry is total; when both the metadata version query and the module
attribute fallback fail, the version is the empty string with
`version_detected = false` (and `version_provided = false`); and
`inspect_requirements` on a name that is not installed yields the empty
sequence without error. -/
theorem C6_not_found_swallowed :
    (∀ (env : Env) (n : String), env.metaVersion n = none → env.modVersion n = none →
      (mkEntry env n none).version = "" ∧
      (mkEntry env n none).version_detected = false ∧
      (mkEntry env n none).version_provided = false) ∧
    (∀ (env : Env) (n : String), n ∉ env.installed →
      inspectRequirements env n = Except.ok []) := by
  constructor
  · intro env n h1 h2
    simp [mkEntry, h1, h2]
  · intro env n h
    simp [inspectRequirements, h]

/-- Witness for C6 at a concrete environment. -/
theorem C6_witness :
    (mkEntry envEmpty "pkg" none).version = "" ∧
    (mkEntry envEmpty "pkg" none).version_detected = false ∧
    inspectRequirements envEmpty "pkg" = Except.ok [] :=
  ⟨(C6_not_found_swallowed.1 envEmpty "pkg" rfl rfl).1,
   (C6_not_found_swallowed.1 envEmpty "pkg" rfl rfl).2.1,
   C6_not_found_swallowed.2 envEmpty "pkg" (by simp [envEmpty])⟩

/-- C7: rendering.  With an explicitly provided version the rendering is the
name immediately followed by the version with no separator; otherwise a
detected version renders as the name, a space, `=` and the version; otherwise
the bare name. -/
theorem C7_rendering :
    (∀ (env : Env) (n v : String), render (mkEntry env n (some v)) = n ++ v) ∧
    (∀ e : Entry, e.version_provided = true → render e = e.name ++ e.version) ∧
    (∀ e : Entry, e.version_provided = false → e.version_detected = true →
      render e = e.name ++ " =" ++ e.version) ∧
    (∀ e : Entry, e.version_provided = false → e.version_detected = false →
      render e = e.name) := by
  refine ⟨fun env n v => rfl, ?_, ?_, ?_⟩
  · intro e h
    simp [render, h]
  · intro e h1 h2
    simp [render, h1, h2]
  · intro e h1 h2
    simp [render, h1, h2]

/-- Witness for C7 at concrete entries. -/
theorem C7_witness :
    render (mkEntry envEmpty "pkg" (some ">=1.0")) = "pkg" ++ ">=1.0" ∧
    render ⟨"pkg", "1.0", false, true, false, []⟩ = "pkg" ++ " =" ++ "1.0" ∧
    render ⟨"pkg", "", false, false, false, []⟩ = "pkg" :=
  ⟨C7_rendering.1 envEmpty "pkg" ">=1.0",
   C7_rendering.2.2.1 ⟨"pkg", "1.0", false, true, false, []⟩ rfl rfl,
   C7_rendering.2.2.2 ⟨"pkg", "", false, false, false, []⟩ rfl rfl⟩

/-- C8: `__gt__` is the lexicographic comparison (lowercased name, then raw
version); the derived `>=` is total and transitive and antisymmetric up to
the class's own `==`, and the stable sort by `__lt__` is idempotent: sorting
a list of entries twice yields the same sequence as sorting it once. -/
theorem C8_total_order_sort :
    (∀ a b : Entry, pyGtB a b = true ↔
      (pyStrLt (pyLower b.name) (pyLower a.name) = true ∨
       (pyLower a.name = pyLower b.name ∧ pyStrLt b.version a.version = true))) ∧
    (∀ a b : Entry, pyGeB a b = true ∨ pyGeB b a = true) ∧
    (∀ a b c : Entry, pyGeB a b = true → pyGeB b c = true → pyGeB a c = true) ∧
    (∀ a b : Entry, pyGeB a b = true → pyGeB b a = true → pyEqB a b = true) ∧
    (∀ l : List Entry, sortEntries (sortEntries l) = sortEntries l) := by
  have htrans : ∀ x y z : Entry,
      (!(pyLtB y x)) = true → (!(pyLtB z y)) = true → (!(pyLtB z x)) = true := by
    intro x y z h1 h2
    simp only [pyLtB, Bool.not_not] at h1 h2 ⊢
    exact pyGeB_trans h2 h1
  have htotal : ∀ x y : Entry, ((!(pyLtB y x)) || (!(pyLtB x y))) = true := by
    intro x y
    simp only [pyLtB, Bool.not_not, Bool.or_eq_true]
    exact (pyGeB_total y x).elim Or.inl Or.inr
  refine ⟨pyGtB_eq_true_iff, pyGeB_total, fun a b c => pyGeB_trans,
    fun a b => pyGeB_antisymm, ?_⟩
  intro l
  unfold sortEntries
  exact List.mergeSort_of_sorted (List.sorted_mergeSort htrans htotal _)

/-- Witness for C8: transitivity and antisymmetry applied at concrete
entries. -/
theorem C8_witness :
    pyGeB (⟨"c", "1", false, false, false, []⟩ : Entry)
      ⟨"a", "1", false, false, false, []⟩ = true ∧
    pyEqB (⟨"Foo", "1", false, false, false, []⟩ : Entry)
      ⟨"foo", "1", false, false, false, []⟩ = true :=
  ⟨C8_total_order_sort.2.2.1 ⟨"c", "1", false, false, false, []⟩
      ⟨"b", "1", false, false, false, []⟩
      ⟨"a", "1", false, false, false, []⟩ (by decide) (by decide),
   C8_total_order_sort.2.2.2.1 ⟨"Foo", "1", false, false, false, []⟩
      ⟨"foo", "1", false, false, false, []⟩ (by decide) (by decide)⟩

/-- C9: `find` hashes the pair `(name, provided_version)`; a query with a
`None` version can never hash-match a stored entry, whose version field is
always a string, so `find(name, None)` is always absent — even when a node
with that exact name is in the set — and the construction loop therefore
builds a fresh entry for an unversioned requirement. -/
theorem C9_find_none_version :
    (∀ (known : List Entry) (n : String), findE known n none = none) ∧
    (∀ (env : Env) (known : List Entry) (n : String),
      resolveDep env known (n, none) = mkEntry env n none) := by
  have h1 : ∀ (known : List Entry) (n : String), findE known n none = none := by
    intro known n
    unfold findE
    apply List.find?_eq_none.mpr
    intro d _
    simp
  refine ⟨h1, ?_⟩
  intro env known n
  unfold resolveDep
  rw [h1]

/-- C10: `__le__` is the negation of `__lt__`, which is itself the negation
of `__ge__`, so `a <= b` returns exactly what `a >= b` returns; in
particular, when `a` is strictly below `b` in the lexicographic ordering,
`a <= b` is `False`. -/
theorem C10_le_equals_ge :
    (∀ a b : Entry, pyLeB a b = pyGeB a b) ∧
    (∀ a b : Entry, lexLt a b → pyLeB a b = false) := by
  have key : ∀ a b : Entry, pyLeB a b = pyGeB a b := by
    intro a b
    simp [pyLeB, pyLtB, Bool.not_not]
  refine ⟨key, ?_⟩
  intro a b h
  rw [key]
  cases hq : pyGeB a b
  · rfl
  · exfalso
    rcases (pyGeB_eq_true_iff a b).mp hq with h1 | ⟨h1, h2⟩
    · rcases h with hl | ⟨he, _⟩
      · rw [pyStrLt_asymm hl] at h1
        cases h1
      · rw [he] at h1
        rw [pyStrLt_irrefl] at h1
        cases h1
    · rcases h with hl | ⟨he, hv⟩
      · rw [h1] at hl
        rw [pyStrLt_irrefl] at hl
        cases hl
      · rcases h2 with h2 | h2
        · rw [h2] at hv
          rw [pyStrLt_irrefl] at hv
          cases hv
        · rw [pyStrLt_asymm hv] at h2
          cases h2

/-- Witness for C10 at concrete entries with `a` strictly below `b`. -/
theorem C10_witness :
    pyLeB (⟨"a", "1", false, false, false, []⟩ : Entry)
      ⟨"b", "1", false, false, false, []⟩ = false :=
  C10_le_equals_ge.2 ⟨"a", "1", false, false, false, []⟩
    ⟨"b", "1", false, false, false, []⟩ (Or.inl (by decide))

/-- C1: for every installed-package index and every declared-requirement
relation (even cyclic), graph construction terminates — the fuel chosen in
`dbInit` always reaches a state in which every node of the set is finalized
(first conjunct); a node already finalized is never reprocessed, even if
rediscovered as a requirement in a later pass (second conjunct); and the
loop ends at the first pass at which all nodes are finalized (third
conjunct).  The hypothesis `noParseErr` states that no declared requirement
string trips the uncaught `AttributeError` of `inspect_requirements`. -/
theorem C1_construction_terminates :
    (∀ env : Env, noParseErr env → ∃ s, dbInit env = Except.ok s ∧ done s = true) ∧
    (∀ (env : Env) (snapshot : List Entry) (e : Entry),
      e.finalized = true → entryStep env snapshot e = e) ∧
    (∀ (env : Env) (f : Nat) (known : List Entry),
      done known = true → buildLoop env f known = Except.ok known) := by
  refine ⟨?_, ?_, ?_⟩
  · intro env hnp
    obtain ⟨s, hs, hd, -⟩ :=
      buildLoop_reaches_done env hnp ((uKeys env).length + 1) (seed env)
        (inv_seed env) (by omega)
    exact ⟨s, hs, hd⟩
  · intro env snapshot e h
    exact entryStep_of_finalized h
  · intro env f known h
    exact buildLoop_of_done h f

/-- Witness for C1: the synthetic cyclic environment `envCyc` (A requires B
and C; B requires A and D; D requires C) satisfies the hypothesis and its
construction reaches the all-finalized fixed point. -/
theorem C1_witness : ∃ s, dbInit envCyc = Except.ok s ∧ done s = true := by
  have h : ∀ n ∈ envCyc.installed, inspectFails envCyc n = false := by decide
  exact C1_construction_terminates.1 envCyc h

/-- C2: after construction completes, every node of the node set is
finalized and every requirement edge of every node points at a key present
in the node set — the closure property: no requirement edge references an
entry outside the set. -/
theorem C2_closure_after_construction :
    ∀ env : Env, noParseErr env →
      ∃ s, dbInit env = Except.ok s ∧ done s = true ∧
        ∀ e ∈ s, ∀ k ∈ e.reqs, k ∈ s.map hashKey := by
  intro env hnp
  obtain ⟨s, hs, hd, hinv⟩ :=
    buildLoop_reaches_done env hnp ((uKeys env).length + 1) (seed env)
      (inv_seed env) (by omega)
  exact ⟨s, hs, hd, hinv.2.1⟩

/-- Witness for C2 at the synthetic cyclic environment. -/
theorem C2_witness :
    ∃ s, dbInit envCyc = Except.ok s ∧ done s = true ∧
      ∀ e ∈ s, ∀ k ∈ e.reqs, k ∈ s.map hashKey := by
  have h : ∀ n ∈ envCyc.installed, inspectFails envCyc n = false := by decide
  exact C2_closure_after_construction envCyc h

end PyReq
